import Mathlib

/-!
Shallow embedding of `LocalStorageVec` from
`src/2-foundations-of-rust/4-traits-and-generics/1-local-storage-vec/src/lib.rs`.

The container is a sum type: a stack-resident fixed buffer with a live
length, or a heap vector.  Rust's `[T; N]` buffer is modelled as a
`List T` whose length is `N` (recorded in the well-formedness predicate
`WF`); `Vec<T>` is a `List T`.  Every Rust operation that can panic is
modelled in `Except Panic`; a `Panic` value records the diagnostic data
(offending index and length) carried by the corresponding Rust panic
message.  `T: Default` becomes `[Inhabited T]`, `T: Clone` is implicit
(cloning is the identity on values).
-/

namespace LSVModel

/-- The diagnostics of the panic sites reachable from the source:
slice/array index out of bounds, slice range out of bounds
(`&buf[0..len]`), the explicit `panic!` in `remove`, and the panics of
`Vec::insert` / `Vec::remove`.  Each constructor records the offending
index (or range end) together with the length the message reports. -/
inductive Panic where
  | indexFail (index len : Nat)
  | rangeFail (endIdx len : Nat)
  | removeFail (index len : Nat)
  | vecInsertFail (index len : Nat)
  | vecRemoveFail (index len : Nat)
  deriving Repr, DecidableEq

/-- The offending index reported by a panic diagnostic. -/
def Panic.pIndex : Panic → Nat
  | .indexFail i _ => i
  | .rangeFail i _ => i
  | .removeFail i _ => i
  | .vecInsertFail i _ => i
  | .vecRemoveFail i _ => i

/-- The length reported by a panic diagnostic. -/
def Panic.pLen : Panic → Nat
  | .indexFail _ l => l
  | .rangeFail _ l => l
  | .removeFail _ l => l
  | .vecInsertFail _ l => l
  | .vecRemoveFail _ l => l

/-- `enum LocalStorageVec<T, const N: usize>` (lib.rs lines 9-17).
`Stack { buf: [T; N], len: usize }` or `Heap(Vec<T>)`.  The buffer
length being `N` is part of `WF` below. -/
inductive LSV (T : Type) where
  | Stack (buf : List T) (len : Nat)
  | Heap (vec : List T)
  deriving Repr, DecidableEq

variable {T : Type} [Inhabited T]

/-- Rust indexing `l[i]` on a slice or array: the value, or the
index-out-of-bounds panic. -/
def indexE (l : List T) (i : Nat) : Except Panic T :=
  match l.get? i with
  | some x => .ok x
  | none => .error (.indexFail i l.length)

/-- Rust index-assignment `l[i] = x`: the updated list, or the
index-out-of-bounds panic. -/
def setE (l : List T) (i : Nat) (x : T) : Except Panic (List T) :=
  if i < l.length then .ok (l.set i x) else .error (.indexFail i l.length)

/-- `Vec::insert(index, elem)` of the Rust standard library: panics
when `index > len`, otherwise splices the element in before `index`. -/
def vecInsert (vec : List T) (index : Nat) (elem : T) : Except Panic (List T) :=
  if index ≤ vec.length then .ok (vec.take index ++ elem :: vec.drop index)
  else .error (.vecInsertFail index vec.length)

/-- `Vec::remove(index)` of the Rust standard library: panics when
`index ≥ len`, otherwise returns the element and the spliced remainder. -/
def vecRemove (vec : List T) (index : Nat) : Except Panic (T × List T) :=
  match vec.get? index with
  | some x => .ok (x, vec.take index ++ vec.drop (index + 1))
  | none => .error (.vecRemoveFail index vec.length)

/-- `From<[T; K]> for LocalStorageVec<T, N>` (lib.rs lines 25-57).
If the array fits (`K ≤ N`) the stack buffer takes the array's items
in order, padded with `T::default()`, with `len = K`; otherwise the
array moves to the heap. -/
def fromArray (N : Nat) (array : List T) : LSV T :=
  if array.length ≤ N then
    .Stack ((List.range N).map (fun i => array.getD i default)) array.length
  else
    .Heap array

/-- `From<Vec<T>> for LocalStorageVec<T, N>` (lib.rs lines 59-63):
always the heap representation. -/
def fromVec (value : List T) : LSV T := .Heap value

/-- `LocalStorageVec::new` (lib.rs lines 92-94): `Self::from([])`. -/
def new (N : Nat) : LSV T := fromArray N ([] : List T)

/-- `LocalStorageVec::len` (lib.rs lines 96-105). -/
def lsvLen : LSV T → Nat
  | .Stack _ len => len
  | .Heap vec => vec.length

/-- Whether the container is in the stack (inline) representation. -/
def isStack : LSV T → Bool
  | .Stack _ _ => true
  | .Heap _ => false

/-- `AsRef::as_ref` (lib.rs lines 65-76): `&buf[0..len]` on the stack
(range slicing panics when `len` exceeds the buffer length), the whole
vector on the heap. -/
def asRef (s : LSV T) : Except Panic (List T) :=
  match s with
  | .Stack buf len =>
      if len ≤ buf.length then .ok (buf.take len)
      else .error (.rangeFail len buf.length)
  | .Heap vec => .ok vec

/-- `AsMut::as_mut` (lib.rs lines 78-89): same bounds as `as_ref`. -/
def asMut (s : LSV T) : Except Panic (List T) :=
  match s with
  | .Stack buf len =>
      if len ≤ buf.length then .ok (buf.take len)
      else .error (.rangeFail len buf.length)
  | .Heap vec => .ok vec

/-- The live element sequence of a container: `buf[0..len]` on the
stack, the vector on the heap.  (`asRef` is proved to return exactly
this on well-formed states.) -/
def view : LSV T → List T
  | .Stack buf len => buf.take len
  | .Heap vec => vec

/-- `LocalStorageVec::push` (lib.rs lines 107-123): write at
`buf[len]` while the buffer has room, otherwise move the whole buffer
to a heap vector (`Vec::from(buf)`) and push there. -/
def push (s : LSV T) (elem : T) : LSV T :=
  match s with
  | .Stack buf len =>
      if len < buf.length then .Stack (buf.set len elem) (len + 1)
      else .Heap (buf ++ [elem])
  | .Heap vec => .Heap (vec ++ [elem])

/-- `LocalStorageVec::pop` (lib.rs lines 125-139): `None` when the
stack length is 0, otherwise decrement and clone out `buf[len]`;
delegate to `Vec::pop` on the heap. -/
def pop (s : LSV T) : Except Panic (Option T × LSV T) :=
  match s with
  | .Stack buf len =>
      if len = 0 then .ok (none, .Stack buf len)
      else do
        let x ← indexE buf (len - 1)
        .ok (some x, .Stack buf (len - 1))
  | .Heap vec => .ok (vec.getLast?, .Heap vec.dropLast)

/-- The loop of `insert` (lib.rs lines 145-147):
`for index in (index..len).rev() { buf[index + 1] = buf[index].clone() }`.
`n` is the number of remaining iterations; the iteration with fuel
`n + 1` handles loop index `start + n`, so the first executed
iteration is loop index `len - 1`, descending to `start`. -/
def shiftR (buf : List T) (start : Nat) : Nat → Except Panic (List T)
  | 0 => .ok buf
  | n + 1 => do
      let x ← indexE buf (start + n)
      let buf' ← setE buf (start + n + 1) x
      shiftR buf' start n

/-- The loop of `remove` (lib.rs lines 171-173):
`for index in index..len { buf[index] = buf[index + 1].clone() }`.
`n` is the number of remaining iterations, ascending from loop index
`start`; note each iteration reads `buf[index + 1]`, so the final
iteration reads `buf[len]` — one past the live region. -/
def shiftL (buf : List T) (start : Nat) : Nat → Except Panic (List T)
  | 0 => .ok buf
  | n + 1 => do
      let x ← indexE buf (start + 1)
      let buf' ← setE buf start x
      shiftL buf' (start + 1) n

/-- `LocalStorageVec::insert` (lib.rs lines 141-162): with room on the
stack (`len ≠ buf.len()`), shift `[index, len)` right then write at
`index`; with a full stack buffer, move everything to a heap vector
and use `Vec::insert`; on the heap, delegate to `Vec::insert`. -/
def insert (s : LSV T) (index : Nat) (elem : T) : Except Panic (LSV T) :=
  match s with
  | .Stack buf len =>
      if len ≠ buf.length then do
        let buf' ← shiftR buf index (len - index)
        let buf'' ← setE buf' index elem
        .ok (.Stack buf'' (len + 1))
      else do
        let newBuf ← vecInsert buf index elem
        .ok (.Heap newBuf)
  | .Heap vec => do
      let newVec ← vecInsert vec index elem
      .ok (.Heap newVec)

/-- `LocalStorageVec::remove` (lib.rs lines 164-182): the explicit
`panic!` when `len == 0 || index >= len`, otherwise clone out
`buf[index]`, run the left-shift loop, decrement the length; on the
heap, delegate to `Vec::remove`. -/
def remove (s : LSV T) (index : Nat) : Except Panic (T × LSV T) :=
  match s with
  | .Stack buf len =>
      if len = 0 ∨ index ≥ len then .error (.removeFail index len)
      else do
        let output ← indexE buf index
        let buf' ← shiftL buf index (len - index)
        .ok (output, .Stack buf' (len - 1))
  | .Heap vec => do
      let r ← vecRemove vec index
      .ok (r.1, .Heap r.2)

/-- `LocalStorageVec::clear` (lib.rs lines 184-193): zero the stack
length (the buffer is untouched), or clear the heap vector. -/
def clear : LSV T → LSV T
  | .Stack buf _ => .Stack buf 0
  | .Heap _ => .Heap []

/-- Iterate `pop` `n` times, collecting each returned option in
order (first pop first). -/
def popN : Nat → LSV T → Except Panic (List (Option T) × LSV T)
  | 0, s => .ok ([], s)
  | n + 1, s => do
      let r ← pop s
      let r2 ← popN n r.2
      .ok (r.1 :: r2.1, r2.2)

/-- Well-formedness: the stack buffer has exactly the declared
capacity `N` (enforced by the Rust type `[T; N]`) and the live length
never exceeds it; heap states carry no constraint. -/
def WF (N : Nat) : LSV T → Prop
  | .Stack buf len => buf.length = N ∧ len ≤ N
  | .Heap _ => True

/-! ### Reduction lemmas for the `Except` monad -/

theorem ok_bind {A B : Type} (x : A) (f : A → Except Panic B) :
    (Except.ok x >>= f) = f x := rfl

theorem error_bind {A B : Type} (e : Panic) (f : A → Except Panic B) :
    ((Except.error e : Except Panic A) >>= f) = .error e := rfl

/-! ### Basic lemmas about the panicking primitives -/

theorem indexE_ok {l : List T} {i : Nat} (h : i < l.length) :
    indexE l i = .ok (l.getD i default) := by
  simp [indexE, List.get?_eq_getElem?, List.getElem?_eq_getElem h,
    List.getD_eq_getElem l default h]

theorem indexE_err {l : List T} {i : Nat} (h : l.length ≤ i) :
    indexE l i = .error (.indexFail i l.length) := by
  simp [indexE, List.get?_eq_getElem?, List.getElem?_eq_none h]

theorem setE_ok {l : List T} {i : Nat} {x : T} (h : i < l.length) :
    setE l i x = .ok (l.set i x) := by
  simp [setE, h]

theorem setE_err {l : List T} {i : Nat} {x : T} (h : l.length ≤ i) :
    setE l i x = .error (.indexFail i l.length) := by
  simp [setE, Nat.not_lt.mpr h]

theorem take_set_of_le {l : List T} {i n : Nat} {x : T} (h : n ≤ i) :
    (l.set i x).take n = l.take n := by
  apply List.ext_getElem?
  intro j
  simp only [List.getElem?_take, List.getElem?_set]
  split_ifs <;> first | rfl | omega

theorem take_set_self {l : List T} {i : Nat} {x : T} (h : i < l.length) :
    (l.set i x).take (i + 1) = l.take i ++ [x] := by
  rw [List.take_succ, take_set_of_le (Nat.le_refl i),
    List.getElem?_set_self h]
  rfl

theorem drop_set_of_lt {l : List T} {i n : Nat} {x : T} (h : i < n) :
    (l.set i x).drop n = l.drop n := by
  rw [List.drop_set, if_pos h]

theorem drop_set_self {l : List T} {i : Nat} {x : T} (h : i < l.length) :
    (l.set i x).drop i = x :: l.drop (i + 1) := by
  rw [List.drop_set, if_neg (Nat.lt_irrefl i), Nat.sub_self,
    List.drop_eq_getElem_cons h, List.set_cons_zero]

/-! ### The shift loops -/

/-- When every access is in bounds, the right-shift loop of `insert`
copies `[start, start+n)` one slot to the right. -/
theorem shiftR_ok {buf : List T} {start n : Nat} (h : start + n < buf.length) :
    shiftR buf start n =
      .ok (buf.take (start + 1) ++ (buf.drop start).take n ++ buf.drop (start + n + 1)) := by
  induction n generalizing buf with
  | zero =>
      simp [shiftR, List.take_append_drop]
  | succ n ih =>
      have h1 : start + n < buf.length := by omega
      have h2 : start + n + 1 < buf.length := by omega
      rw [shiftR, indexE_ok h1, ok_bind, setE_ok h2, ok_bind,
        ih (by simp; omega)]
      congr 1
      rw [take_set_of_le (by omega), List.drop_set, if_neg (by omega)]
      have hsub : start + n + 1 - start = n + 1 := by omega
      rw [hsub, take_set_of_le (by omega)]
      have h3 : (buf.set (start + n + 1) (buf.getD (start + n) default)).drop
          (start + n + 1) = buf.getD (start + n) default :: buf.drop (start + n + 1 + 1) :=
        drop_set_self h2
      rw [h3]
      have h4 : (buf.drop start).take (n + 1) =
          (buf.drop start).take n ++ [buf.getD (start + n) default] := by
        rw [List.take_succ, List.getElem?_drop,
          List.getElem?_eq_getElem h1, List.getD_eq_getElem buf default h1]
        rfl
      rw [h4]
      have h6 : start + n + 1 + 1 = start + (n + 1) + 1 := by omega
      rw [h6]
      simp

/-- When every access is in bounds, the left-shift loop of `remove`
copies `[start+1, start+n+1)` one slot to the left (so the final
iteration drags `buf[start+n]` into position `start+n-1`). -/
theorem shiftL_ok {buf : List T} {start n : Nat} (h : start + n < buf.length) :
    shiftL buf start n =
      .ok (buf.take start ++ (buf.drop (start + 1)).take n ++ buf.drop (start + n)) := by
  induction n generalizing buf start with
  | zero =>
      simp [shiftL, List.take_append_drop]
  | succ n ih =>
      have h1 : start + 1 < buf.length := by omega
      have h0 : start < buf.length := by omega
      rw [shiftL, indexE_ok h1, ok_bind, setE_ok h0, ok_bind,
        ih (by simp; omega)]
      congr 1
      rw [take_set_self h0, drop_set_of_lt (by omega), drop_set_of_lt (by omega)]
      have h4 : (buf.drop (start + 1)).take (n + 1) =
          buf.getD (start + 1) default :: (buf.drop (start + 1 + 1)).take n := by
        rw [List.drop_eq_getElem_cons h1, List.getD_eq_getElem buf default h1]
        rfl
      rw [h4]
      have h5 : start + 1 + n = start + (n + 1) := by omega
      rw [h5]
      simp

/-- The left-shift loop of `remove` panics when its last iteration
reads one past the end of the buffer: with `start + n = buf.length`
and at least one iteration, the result is the index-out-of-bounds
diagnostic at index `buf.length`. -/
theorem shiftL_err {buf : List T} {start n : Nat}
    (h : start + n = buf.length) (hn : 0 < n) :
    shiftL buf start n = .error (.indexFail buf.length buf.length) := by
  induction n generalizing buf start with
  | zero => omega
  | succ n ih =>
      rcases Nat.eq_zero_or_pos n with hn0 | hn1
      · subst hn0
        have h1 : buf.length ≤ start + 1 := by omega
        rw [shiftL, indexE_err h1, error_bind]
        have h2 : start + 1 = buf.length := by omega
        rw [h2]
      · have h1 : start + 1 < buf.length := by omega
        have h0 : start < buf.length := by omega
        rw [shiftL, indexE_ok h1, ok_bind, setE_ok h0, ok_bind]
        have h2 := @ih (buf.set start (buf.getD (start + 1) default))
          (start + 1) (by simp; omega) hn1
        simpa using h2

/-! ### Construction -/

theorem fromArray_le {N : Nat} {l : List T} (h : l.length ≤ N) :
    fromArray N l = .Stack (l ++ List.replicate (N - l.length) default) l.length := by
  rw [fromArray, if_pos h]
  congr 1
  apply List.ext_getElem?
  intro j
  rw [List.getElem?_map, List.getElem?_append]
  by_cases hj : j < N
  · rw [List.getElem?_range hj, Option.map_some']
    by_cases hjl : j < l.length
    · rw [if_pos hjl, List.getD_eq_getElem l default hjl,
        List.getElem?_eq_getElem hjl]
    · rw [if_neg hjl, List.getD_eq_default l default (by omega),
        List.getElem?_replicate, if_pos (by omega)]
  · rw [List.getElem?_eq_none (by rw [List.length_range]; omega),
      Option.map_none', if_neg (by omega), List.getElem?_replicate,
      if_neg (by omega)]

theorem fromArray_gt {N : Nat} {l : List T} (h : N < l.length) :
    fromArray N l = .Heap l := by
  rw [fromArray, if_neg (Nat.not_le.mpr h)]

theorem new_eq {N : Nat} : (new N : LSV T) = .Stack (List.replicate N default) 0 := by
  rw [new, fromArray_le (by simp)]
  simp

theorem view_fromArray {N : Nat} {l : List T} : view (fromArray N l) = l := by
  by_cases h : l.length ≤ N
  · rw [fromArray_le h, view, List.take_append_of_le_length (Nat.le_refl _),
      List.take_length]
  · rw [fromArray_gt (by omega), view]

theorem lsvLen_fromArray {N : Nat} {l : List T} : lsvLen (fromArray N l) = l.length := by
  by_cases h : l.length ≤ N
  · rw [fromArray_le h, lsvLen]
  · rw [fromArray_gt (by omega), lsvLen]

theorem WF_fromArray {N : Nat} {l : List T} : WF N (fromArray N l) := by
  by_cases h : l.length ≤ N
  · rw [fromArray_le h]
    refine ⟨?_, h⟩
    simp
    omega
  · rw [fromArray_gt (by omega)]
    trivial

/-! ### `insert` case analysis -/

/-- Non-full stack buffer, index within the live region: the element
goes in at `index` and everything of `[index, len)` moves right. -/
theorem insert_stack_ok {buf : List T} {len index : Nat} {elem : T}
    (hlen : len < buf.length) (hidx : index ≤ len) :
    insert (.Stack buf len) index elem =
      .ok (.Stack (buf.take index ++ elem :: ((buf.drop index).take (len - index) ++ buf.drop (len + 1)))
        (len + 1)) := by
  have hne : len ≠ buf.length := Nat.ne_of_lt hlen
  have hfit : index + (len - index) < buf.length := by omega
  rw [insert, if_pos hne, shiftR_ok hfit, ok_bind]
  have hsub : index + (len - index) + 1 = len + 1 := by omega
  rw [hsub]
  have hidx2 : index <
      (buf.take (index + 1) ++ (buf.drop index).take (len - index) ++ buf.drop (len + 1)).length := by
    simp
    omega
  rw [setE_ok hidx2, ok_bind]
  congr 2
  rw [List.set_append, if_pos (by simp; omega), List.set_append,
    if_pos (by simp; omega)]
  rw [List.take_succ, List.getElem?_eq_getElem (by omega : index < buf.length)]
  rw [List.set_append, if_neg (by simp)]
  have hmin : index ⊓ buf.length = index := inf_eq_left.mpr (by omega)
  simp [hmin]

/-- Non-full stack buffer, index past the live region but inside the
buffer: no bounds check fires, the element lands in a dead slot. -/
theorem insert_stack_gap {buf : List T} {len index : Nat} {elem : T}
    (hlen : len < buf.length) (hgt : len < index) (hcap : index < buf.length) :
    insert (.Stack buf len) index elem =
      .ok (.Stack (buf.set index elem) (len + 1)) := by
  have hne : len ≠ buf.length := Nat.ne_of_lt hlen
  have h0 : len - index = 0 := by omega
  rw [insert, if_pos hne, h0, shiftR, ok_bind, setE_ok hcap, ok_bind]

/-- Non-full stack buffer, index at or past the buffer capacity: the
write panics with the slice diagnostic (index and buffer capacity). -/
theorem insert_stack_oob {buf : List T} {len index : Nat} {elem : T}
    (hlen : len < buf.length) (hcap : buf.length ≤ index) :
    insert (.Stack buf len) index elem = .error (.indexFail index buf.length) := by
  have hne : len ≠ buf.length := Nat.ne_of_lt hlen
  have h0 : len - index = 0 := by omega
  rw [insert, if_pos hne, h0, shiftR, ok_bind, setE_err hcap, error_bind]

/-- Full stack buffer: migrate everything to the heap and delegate to
`Vec::insert`, which bounds-checks. -/
theorem insert_stack_full {buf : List T} {index : Nat} {elem : T} :
    insert (.Stack buf buf.length) index elem =
      if index ≤ buf.length then
        .ok (.Heap (buf.take index ++ elem :: buf.drop index))
      else .error (.vecInsertFail index buf.length) := by
  rw [insert, if_neg (by simp), vecInsert]
  by_cases h : index ≤ buf.length
  · rw [if_pos h, if_pos h, ok_bind]
  · rw [if_neg h, if_neg h, error_bind]

theorem insert_heap {vec : List T} {index : Nat} {elem : T} :
    insert (.Heap vec) index elem =
      if index ≤ vec.length then
        .ok (.Heap (vec.take index ++ elem :: vec.drop index))
      else .error (.vecInsertFail index vec.length) := by
  rw [insert, vecInsert]
  by_cases h : index ≤ vec.length
  · rw [if_pos h, if_pos h, ok_bind]
  · rw [if_neg h, if_neg h, error_bind]

/-! ### `remove` case analysis -/

/-- Stack, index in bounds, buffer not full: the element comes out and
`[index+1, len)` moves left; the shift also drags the dead slot
`buf[len]` into position `len - 1`, which the shorter live region then
hides. -/
theorem remove_stack_ok {buf : List T} {len index : Nat}
    (hidx : index < len) (hlen : len < buf.length) :
    remove (.Stack buf len) index =
      .ok (buf.getD index default,
        .Stack (buf.take index ++ ((buf.drop (index + 1)).take (len - index) ++ buf.drop len))
          (len - 1)) := by
  have hc : ¬ (len = 0 ∨ index ≥ len) := by omega
  have hfit : index + (len - index) < buf.length := by omega
  rw [remove, if_neg hc, indexE_ok (by omega), ok_bind, shiftL_ok hfit, ok_bind]
  have hsub : index + (len - index) = len := by omega
  rw [hsub, List.append_assoc]

/-- Stack, index in bounds, buffer exactly full (`len = N`): the shift
loop reads `buf[len]`, one past the array, and panics. -/
theorem remove_stack_full {buf : List T} {index : Nat}
    (h0 : 0 < buf.length) (hidx : index < buf.length) :
    remove (.Stack buf buf.length) index =
      .error (.indexFail buf.length buf.length) := by
  have hc : ¬ (buf.length = 0 ∨ index ≥ buf.length) := by omega
  rw [remove, if_neg hc, indexE_ok (by omega), ok_bind,
    shiftL_err (by omega) (by omega), error_bind]

/-- Stack, index out of bounds (or empty): the explicit `panic!` with
the source's own diagnostic. -/
theorem remove_stack_oob {buf : List T} {len index : Nat}
    (h : len = 0 ∨ index ≥ len) :
    remove (.Stack buf len) index = .error (.removeFail index len) := by
  rw [remove, if_pos h]

theorem remove_heap_ok {vec : List T} {index : Nat} (h : index < vec.length) :
    remove (.Heap vec) index =
      .ok (vec.getD index default, .Heap (vec.take index ++ vec.drop (index + 1))) := by
  rw [remove, vecRemove, List.get?_eq_getElem?, List.getElem?_eq_getElem h,
    List.getD_eq_getElem vec default h]
  rfl

theorem remove_heap_oob {vec : List T} {index : Nat} (h : vec.length ≤ index) :
    remove (.Heap vec) index = .error (.vecRemoveFail index vec.length) := by
  rw [remove, vecRemove, List.get?_eq_getElem?, List.getElem?_eq_none h]
  rfl

/-! ### Views and lengths -/

theorem view_length {N : Nat} {s : LSV T} (hWF : WF N s) :
    (view s).length = lsvLen s := by
  cases s with
  | Stack buf len =>
      obtain ⟨hbl, hle⟩ := hWF
      simp [view, lsvLen, List.length_take]
      omega
  | Heap vec => rfl

/-! ### `pop` behaviour -/

theorem pop_zero {s : LSV T} (h : lsvLen s = 0) : pop s = .ok (none, s) := by
  cases s with
  | Stack buf len =>
      rw [lsvLen] at h
      simp [pop, h]
  | Heap vec =>
      rw [lsvLen] at h
      simp [pop, List.length_eq_zero.mp h]

theorem pop_succ {N : Nat} {s : LSV T} (hWF : WF N s) (h : lsvLen s ≠ 0) :
    ∃ x s', pop s = .ok (some x, s') ∧ view s = view s' ++ [x] ∧
      lsvLen s' = lsvLen s - 1 ∧ WF N s' ∧ isStack s' = isStack s := by
  cases s with
  | Stack buf len =>
      obtain ⟨hbl, hle⟩ := hWF
      rw [lsvLen] at h
      refine ⟨buf.getD (len - 1) default, .Stack buf (len - 1), ?_, ?_, ?_, ?_, rfl⟩
      · rw [pop, if_neg h, indexE_ok (by omega), ok_bind]
      · show buf.take len = buf.take (len - 1) ++ [buf.getD (len - 1) default]
        have hlen1 : len - 1 < buf.length := by omega
        have h1 : buf.take (len - 1 + 1) = buf.take (len - 1) ++ [buf.getD (len - 1) default] := by
          rw [List.take_succ, List.getElem?_eq_getElem hlen1,
            List.getD_eq_getElem buf default hlen1]
          rfl
        rw [← h1, Nat.sub_add_cancel (by omega)]
      · rfl
      · exact ⟨hbl, by omega⟩
  | Heap vec =>
      rw [lsvLen] at h
      have hne : vec ≠ [] := by
        intro hcon
        rw [hcon] at h
        exact h rfl
      refine ⟨vec.getLast hne, .Heap vec.dropLast, ?_, ?_, ?_, trivial, rfl⟩
      · rw [pop, List.getLast?_eq_getLast vec hne]
      · exact (List.dropLast_append_getLast hne).symm
      · simp [lsvLen]

theorem popN_all {N : Nat} : ∀ (n : Nat) (s : LSV T), WF N s → lsvLen s = n →
    ∃ s', popN n s = .ok ((view s).reverse.map some, s') ∧ lsvLen s' = 0 ∧
      WF N s' ∧ isStack s' = isStack s := by
  intro n
  induction n with
  | zero =>
      intro s hWF hlen
      refine ⟨s, ?_, hlen, hWF, rfl⟩
      have hv : view s = [] :=
        List.length_eq_zero.mp (by rw [view_length hWF, hlen])
      rw [popN, hv]
      rfl
  | succ n ih =>
      intro s hWF hlen
      obtain ⟨x, s1, hpop, hview, hlen1, hWF1, hstk1⟩ :=
        pop_succ hWF (by omega)
      obtain ⟨s2, hpn, hlen2, hWF2, hstk2⟩ :=
        ih s1 hWF1 (by omega)
      refine ⟨s2, ?_, hlen2, hWF2, by rw [hstk2, hstk1]⟩
      rw [popN, hpop, ok_bind, hpn, ok_bind, hview]
      simp

/-! ### `push` behaviour -/

theorem foldl_push_stack {es : List T} : ∀ {buf : List T} {len : Nat},
    len + es.length ≤ buf.length →
    List.foldl push (.Stack buf len) es =
      .Stack (buf.take len ++ es ++ buf.drop (len + es.length)) (len + es.length) := by
  induction es with
  | nil =>
      intro buf len h
      simp [List.take_append_drop]
  | cons e es ih =>
      intro buf len h
      have hlt : len < buf.length := by simp at h; omega
      rw [List.foldl_cons, push, if_pos hlt,
        ih (by simp [List.length_set]; simp at h; omega)]
      rw [take_set_self hlt, drop_set_of_lt (by omega)]
      have ha : len + 1 + es.length = len + (e :: es).length := by simp; omega
      rw [ha]
      simp

/-! ### Claim theorems -/

/-- Claim C1: the claim says `remove(i)` with `i < L` returns the
element at `i` and shifts the rest left, in particular when the live
length `L` equals the inline capacity `N`.  The code violates this: on
a full inline buffer the shift loop reads `buf[len]`, one past the
array, and panics with an index-out-of-bounds diagnostic.  Concretely,
the container built from the 1-element array `[7]` at capacity `N = 1`
is `Stack [7] 1`, and `remove 0` — a valid index — panics instead of
returning `7`. -/
theorem c1_remove_at_full_capacity_panics :
    remove (fromArray 1 [7] : LSV Nat) 0 = .error (.indexFail 1 1) := by
  rfl

/-- Claim C2: the claim says `insert(i, e)` then `remove(i)` returns
`e` and restores the sequence for every container and valid `i`.  The
code violates this whenever the insert fills the inline buffer: at
capacity `N = 1`, inserting `42` into the empty inline container
succeeds and fills the buffer, and the following `remove 0` panics
(out-of-bounds read in the shift loop) instead of returning `42`. -/
theorem c2_insert_remove_roundtrip_panics :
    insert (new 1 : LSV Nat) 0 42 = .ok (.Stack [42] 1) ∧
    remove (.Stack [42] 1 : LSV Nat) 0 = .error (.indexFail 1 1) := by
  constructor <;> rfl

/-- Claim C3, counterexample: the claim says `insert` with
`index > length` halts execution.  The container built from `[0, 1]`
at capacity 4 is `Stack [0, 1, 0, 0] 2`; inserting `9` at the
out-of-bounds index 3 returns normally (writing into a dead slot)
instead of halting. -/
theorem c3_insert_oob_returns_normally :
    insert (fromArray 4 [0, 1] : LSV Nat) 3 9 = .ok (.Stack [0, 1, 0, 9] 3) := by
  rfl

/-- Claim C3 (amended): `remove` with `index ≥ length` always halts
with a diagnostic carrying the offending index and the current length.
`insert` with `index > length` halts with such a diagnostic when the
container is Heap or a full Inline container; but an Inline container
with `length < N` returns normally whenever `index < N`, and when
`index ≥ N` it halts with a diagnostic carrying the index and the
buffer capacity `N` rather than the live length. -/
theorem c3_amended_oob_behaviour (N : Nat) (s : LSV T) (hWF : WF N s)
    (i : Nat) (x : T) :
    (lsvLen s ≤ i → ∃ e, remove s i = .error e ∧ e.pIndex = i ∧ e.pLen = lsvLen s) ∧
    (lsvLen s < i → (isStack s = false ∨ lsvLen s = N) →
      ∃ e, insert s i x = .error e ∧ e.pIndex = i ∧ e.pLen = lsvLen s) ∧
    (lsvLen s < i → isStack s = true → lsvLen s < N → i < N →
      ∃ s', insert s i x = .ok s') ∧
    (lsvLen s < i → isStack s = true → lsvLen s < N → N ≤ i →
      insert s i x = .error (.indexFail i N)) := by
  cases s with
  | Stack buf len =>
      obtain ⟨hbl, hle⟩ := hWF
      subst hbl
      refine ⟨?_, ?_, ?_, ?_⟩
      · intro hi
        exact ⟨.removeFail i len, remove_stack_oob (Or.inr hi), rfl, rfl⟩
      · intro hi hfull
        rcases hfull with hcon | hfull
        · exact absurd hcon (by simp [isStack])
        · rw [lsvLen] at hi hfull ⊢
          subst hfull
          rw [insert_stack_full, if_neg (by omega)]
          exact ⟨.vecInsertFail i buf.length, rfl, rfl, rfl⟩
      · intro hi _ hlt hcap
        rw [lsvLen] at hi hlt
        exact ⟨_, insert_stack_gap hlt hi hcap⟩
      · intro hi _ hlt hcap
        rw [lsvLen] at hi hlt
        exact insert_stack_oob hlt hcap
  | Heap vec =>
      refine ⟨?_, ?_, ?_, ?_⟩
      · intro hi
        rw [lsvLen] at hi ⊢
        exact ⟨.vecRemoveFail i vec.length, remove_heap_oob hi, rfl, rfl⟩
      · intro hi _
        rw [lsvLen] at hi ⊢
        rw [insert_heap, if_neg (by omega)]
        exact ⟨.vecInsertFail i vec.length, rfl, rfl, rfl⟩
      · intro _ hcon
        exact absurd hcon (by simp [isStack])
      · intro _ hcon
        exact absurd hcon (by simp [isStack])

/-- Witness for C3 (amended): at capacity 2, the full inline container
built from `[5, 6]` halts on `remove 5` with a diagnostic carrying
index 5 and length 2, and halts on `insert 5` with a diagnostic
carrying index 5 and length 2. -/
theorem c3_amended_oob_behaviour_witness :
    (lsvLen (fromArray 2 [5, 6] : LSV Nat) ≤ 5 ∧
      ∃ e, remove (fromArray 2 [5, 6] : LSV Nat) 5 = .error e ∧
        e.pIndex = 5 ∧ e.pLen = lsvLen (fromArray 2 [5, 6] : LSV Nat)) ∧
    (lsvLen (fromArray 2 [5, 6] : LSV Nat) < 5 ∧
      ∃ e, insert (fromArray 2 [5, 6] : LSV Nat) 5 (0 : Nat) = .error e ∧
        e.pIndex = 5 ∧ e.pLen = lsvLen (fromArray 2 [5, 6] : LSV Nat)) :=
  ⟨⟨by decide,
    (c3_amended_oob_behaviour 2 (fromArray 2 [5, 6]) WF_fromArray 5 0).1 (by decide)⟩,
   ⟨by decide,
    (c3_amended_oob_behaviour 2 (fromArray 2 [5, 6]) WF_fromArray 5 0).2.1
      (by decide) (Or.inr (by decide))⟩⟩

/-- Claim C8: `clear` leaves the length at 0 and never changes the
representation class: an Inline container stays Inline, a Heap
container stays Heap. -/
theorem c8_clear_length_and_representation (s : LSV T) :
    lsvLen (clear s) = 0 ∧ isStack (clear s) = isStack s := by
  cases s <;> simp [clear, lsvLen, isStack]

/-- Claim C10: on an Inline container with live length `L < N` and
`L < i < N`, `insert(i, e)` returns normally: it writes `e` into the
dead buffer slot `i`, increments the length, and the new live view is
the old view extended with the buffer's pre-existing slot content at
position `L` — the view does not depend on `e` at all. -/
theorem c10_insert_gap_writes_dead_slot (N : Nat) (buf : List T) (L i : Nat)
    (e : T) (hbuf : buf.length = N) (hL : L < N) (hLi : L < i) (hiN : i < N) :
    insert (.Stack buf L) i e = .ok (.Stack (buf.set i e) (L + 1)) ∧
    (buf.set i e).getD i default = e ∧
    view (.Stack (buf.set i e) (L + 1) : LSV T) =
      view (.Stack buf L : LSV T) ++ [buf.getD L default] := by
  subst hbuf
  refine ⟨insert_stack_gap hL hLi hiN, ?_, ?_⟩
  · rw [List.getD_eq_getElem?_getD, List.getElem?_set_self hiN]
    rfl
  · show (buf.set i e).take (L + 1) = buf.take L ++ [buf.getD L default]
    rw [take_set_of_le (by omega), List.take_succ,
      List.getElem?_eq_getElem hL, List.getD_eq_getElem buf default hL]
    rfl

/-- Witness for C10: capacity 4, live length 1, dead-slot index 3. -/
theorem c10_insert_gap_witness :
    ([0, 1, 2, 3] : List Nat).length = 4 ∧ (1 : Nat) < 4 ∧ (1 : Nat) < 3 ∧
      (3 : Nat) < 4 ∧
    insert (.Stack [0, 1, 2, 3] 1 : LSV Nat) 3 9 =
      .ok (.Stack (([0, 1, 2, 3] : List Nat).set 3 9) 2) ∧
    view (.Stack (([0, 1, 2, 3] : List Nat).set 3 9) 2 : LSV Nat) =
      view (.Stack [0, 1, 2, 3] 1 : LSV Nat) ++ [([0, 1, 2, 3] : List Nat).getD 1 0] :=
  ⟨rfl, by decide, by decide, by decide,
    (c10_insert_gap_writes_dead_slot 4 [0, 1, 2, 3] 1 3 9 rfl (by decide)
      (by decide) (by decide)).1,
    (c10_insert_gap_writes_dead_slot 4 [0, 1, 2, 3] 1 3 9 rfl (by decide)
      (by decide) (by decide)).2.2⟩

/-- Claim C4: `push` increases the length by exactly 1, keeps the
prior elements in order and appends the new element; and pushing
`N + 1` elements into a fresh container of inline capacity `N` keeps
it Inline through the first `N` pushes, transitions to Heap at the
`(N+1)`-th, and the resulting view is the full sequence in insertion
order. -/
theorem c4_push_behaviour (N : Nat) :
    (∀ (s : LSV T) (e : T), WF N s →
      lsvLen (push s e) = lsvLen s + 1 ∧ view (push s e) = view s ++ [e]) ∧
    (∀ (es : List T) (e : T), es.length = N →
      (∀ k, k ≤ N → isStack (List.foldl push (new N) (es.take k)) = true) ∧
      isStack (push (List.foldl push (new N) es) e) = false ∧
      view (push (List.foldl push (new N) es) e) = es ++ [e]) := by
  constructor
  · intro s e hWF
    cases s with
    | Stack buf len =>
        obtain ⟨hbl, hle⟩ := hWF
        by_cases hlt : len < buf.length
        · rw [push, if_pos hlt]
          refine ⟨rfl, ?_⟩
          show (buf.set len e).take (len + 1) = buf.take len ++ [e]
          exact take_set_self hlt
        · have heq : len = buf.length := by omega
          rw [push, if_neg hlt]
          subst heq
          refine ⟨by rw [lsvLen, lsvLen, List.length_append, List.length_cons,
            List.length_nil], ?_⟩
          show buf ++ [e] = buf.take buf.length ++ [e]
          rw [List.take_length]
    | Heap vec =>
        refine ⟨?_, rfl⟩
        rw [push, lsvLen, lsvLen, List.length_append, List.length_cons,
          List.length_nil]
  · intro es e hN
    have hbase : ∀ l : List T, l.length ≤ N →
        List.foldl push (new N) l = .Stack (l ++ (List.replicate N (default : T)).drop l.length) l.length := by
      intro l hl
      rw [new_eq, foldl_push_stack (by simp; omega)]
      simp
    refine ⟨?_, ?_, ?_⟩
    · intro k hk
      rw [hbase (es.take k) (by simp; omega)]
      rfl
    · rw [hbase es (by omega), push, if_neg (by simp; omega)]
      rfl
    · rw [hbase es (by omega), push, if_neg (by simp; omega)]
      show (es ++ (List.replicate N (default : T)).drop es.length) ++ [e] = es ++ [e]
      rw [hN, List.drop_replicate]
      simp

/-- Witness for C4: at capacity 2, a single push on the fresh
container adds one element, and pushing a third element onto
`[7, 8]` leaves the Heap representation with view `[7, 8, 9]`. -/
theorem c4_push_behaviour_witness :
    (lsvLen (push (new 2 : LSV Nat) 5) = lsvLen (new 2 : LSV Nat) + 1 ∧
      view (push (new 2 : LSV Nat) 5) = view (new 2 : LSV Nat) ++ [5]) ∧
    ([7, 8] : List Nat).length = 2 ∧
    isStack (push (List.foldl push (new 2 : LSV Nat) [7, 8]) 9) = false ∧
    view (push (List.foldl push (new 2 : LSV Nat) [7, 8]) 9) = [7, 8] ++ [9] :=
  ⟨(c4_push_behaviour 2).1 (new 2) 5 WF_fromArray, rfl,
    ((c4_push_behaviour 2).2 [7, 8] 9 rfl).2.1,
    ((c4_push_behaviour 2).2 [7, 8] 9 rfl).2.2⟩

/-- Claim C5: constructing from a fixed-size initializer of length
`K ≤ N` yields an Inline container of length `K` whose buffer is the
initializer padded with defaults on `[K, N)`; `K > N` yields a Heap
container of length `K`; constructing from a `Vec` always yields a
Heap container regardless of its length. -/
theorem c5_construction (N : Nat) (l : List T) :
    (l.length ≤ N →
      fromArray N l = .Stack (l ++ List.replicate (N - l.length) default) l.length ∧
      isStack (fromArray N l) = true ∧ lsvLen (fromArray N l) = l.length) ∧
    (N < l.length →
      fromArray N l = .Heap l ∧ isStack (fromArray N l) = false ∧
      lsvLen (fromArray N l) = l.length) ∧
    (fromVec l = (.Heap l : LSV T) ∧ isStack (fromVec l : LSV T) = false ∧
      lsvLen (fromVec l : LSV T) = l.length) := by
  refine ⟨?_, ?_, rfl, rfl, rfl⟩
  · intro h
    rw [fromArray_le h]
    exact ⟨rfl, rfl, rfl⟩
  · intro h
    rw [fromArray_gt h]
    exact ⟨rfl, rfl, rfl⟩

/-- Witness for C5: capacity 2 with a 1-element array (Inline, padded
with the default 0) and with a 3-element array (Heap). -/
theorem c5_construction_witness :
    (([4] : List Nat).length ≤ 2 ∧
      fromArray 2 [4] = (.Stack ([4] ++ List.replicate (2 - ([4] : List Nat).length) 0)
        ([4] : List Nat).length : LSV Nat)) ∧
    (2 < ([4, 5, 6] : List Nat).length ∧
      fromArray 2 [4, 5, 6] = (.Heap [4, 5, 6] : LSV Nat)) ∧
    fromVec [9] = (.Heap [9] : LSV Nat) :=
  ⟨⟨by decide, ((c5_construction 2 [4]).1 (by decide)).1⟩,
   ⟨by decide, ((c5_construction 2 [4, 5, 6]).2.1 (by decide)).1⟩,
   (c5_construction 2 [9]).2.2.1⟩

/-- Claim C6: `pop` on an empty container of either representation
returns `none` and is not a fatal error; on a container built from the
`K` elements of `l` (by either construction), `K` successive pops
return exactly those elements in reverse insertion order, and the next
pop signals absence. -/
theorem c6_pop_behaviour (N : Nat) :
    (∀ s : LSV T, lsvLen s = 0 → pop s = .ok (none, s)) ∧
    (∀ l : List T, ∃ s',
      popN l.length (fromArray N l) = .ok (l.reverse.map some, s') ∧
      pop s' = .ok (none, s')) ∧
    (∀ l : List T, ∃ s',
      popN l.length (fromVec l : LSV T) = .ok (l.reverse.map some, s') ∧
      pop s' = .ok (none, s')) := by
  refine ⟨fun s h => pop_zero h, ?_, ?_⟩
  · intro l
    obtain ⟨s', hpn, hlen0, _, _⟩ :=
      popN_all l.length (fromArray N l) WF_fromArray lsvLen_fromArray
    rw [view_fromArray] at hpn
    exact ⟨s', hpn, pop_zero hlen0⟩
  · intro l
    obtain ⟨s', hpn, hlen0, _, _⟩ :=
      @popN_all T _ N l.length (fromVec l) trivial rfl
    exact ⟨s', hpn, pop_zero hlen0⟩

/-- Witness for C6: popping the fresh empty container returns `none`,
and popping twice on the container built from `[1, 2]` at capacity 1
(a Heap container) yields `2` then `1` then `none`. -/
theorem c6_pop_behaviour_witness :
    (lsvLen (new 3 : LSV Nat) = 0 ∧ pop (new 3 : LSV Nat) = .ok (none, new 3)) ∧
    (∃ s', popN ([1, 2] : List Nat).length (fromArray 1 [1, 2] : LSV Nat) =
        .ok (([1, 2] : List Nat).reverse.map some, s') ∧
      pop s' = .ok (none, s')) :=
  ⟨⟨rfl, (c6_pop_behaviour 3).1 (new 3) rfl⟩,
   (c6_pop_behaviour 1).2.1 [1, 2]⟩

/-- Claim C7: on every well-formed state the read view `asRef` and the
write view `asMut` both succeed and return exactly the live elements —
`buf.take len` for an Inline container, the whole vector for a Heap
container — whose length is the live length, so dead tail slots of the
inline buffer are never exposed. -/
theorem c7_views_cover_live_elements (N : Nat) (s : LSV T) (hWF : WF N s) :
    asRef s = .ok (view s) ∧ asMut s = asRef s ∧
    (view s).length = lsvLen s ∧
    (∀ buf len, s = .Stack buf len → view s = buf.take len) ∧
    (∀ vec, s = .Heap vec → view s = vec) := by
  refine ⟨?_, ?_, view_length hWF, ?_, ?_⟩
  · cases s with
    | Stack buf len =>
        obtain ⟨hbl, hle⟩ := hWF
        rw [asRef, if_pos (by omega)]
        rfl
    | Heap vec => rfl
  · cases s with
    | Stack buf len => rfl
    | Heap vec => rfl
  · intro buf len h
    subst h
    rfl
  · intro vec h
    subst h
    rfl

/-- Witness for C7: the container built from `[3]` at capacity 2. -/
theorem c7_views_witness :
    asRef (fromArray 2 [3] : LSV Nat) = .ok (view (fromArray 2 [3] : LSV Nat)) ∧
    asMut (fromArray 2 [3] : LSV Nat) = asRef (fromArray 2 [3] : LSV Nat) ∧
    (view (fromArray 2 [3] : LSV Nat)).length = lsvLen (fromArray 2 [3] : LSV Nat) :=
  ⟨(c7_views_cover_live_elements 2 _ WF_fromArray).1,
   (c7_views_cover_live_elements 2 _ WF_fromArray).2.1,
   (c7_views_cover_live_elements 2 _ WF_fromArray).2.2.1⟩

/-- Claim C9: the invariant "Inline implies `length ≤ N` (and the
buffer has exactly `N` slots)" holds for every constructor and is
preserved by every mutating operation that returns normally. -/
theorem c9_invariant_preserved (N : Nat) :
    WF N (new N : LSV T) ∧
    (∀ l : List T, WF N (fromArray N l) ∧ WF N (fromVec l : LSV T)) ∧
    (∀ (s : LSV T) (e : T), WF N s → WF N (push s e)) ∧
    (∀ (s : LSV T) (r : Option T × LSV T), WF N s → pop s = .ok r → WF N r.2) ∧
    (∀ (s : LSV T) (i : Nat) (e : T) (s' : LSV T), WF N s →
      insert s i e = .ok s' → WF N s') ∧
    (∀ (s : LSV T) (i : Nat) (r : T × LSV T), WF N s →
      remove s i = .ok r → WF N r.2) ∧
    (∀ s : LSV T, WF N s → WF N (clear s)) := by
  refine ⟨WF_fromArray, fun l => ⟨WF_fromArray, trivial⟩, ?_, ?_, ?_, ?_, ?_⟩
  · intro s e hWF
    cases s with
    | Stack buf len =>
        obtain ⟨hbl, hle⟩ := hWF
        by_cases hlt : len < buf.length
        · rw [push, if_pos hlt]
          exact ⟨by rw [List.length_set]; exact hbl, by omega⟩
        · rw [push, if_neg hlt]
          trivial
    | Heap vec => trivial
  · intro s r hWF hpop
    by_cases h0 : lsvLen s = 0
    · rw [pop_zero h0] at hpop
      cases hpop
      exact hWF
    · obtain ⟨x, s', heq, _, _, hWF', _⟩ := pop_succ hWF h0
      rw [heq] at hpop
      cases hpop
      exact hWF'
  · intro s i e s' hWF hins
    cases s with
    | Stack buf len =>
        obtain ⟨hbl, hle⟩ := hWF
        by_cases hfull : len = buf.length
        · subst hfull
          rw [insert_stack_full] at hins
          by_cases hi : i ≤ buf.length
          · rw [if_pos hi] at hins
            cases hins
            trivial
          · rw [if_neg hi] at hins
            cases hins
        · have hlt : len < buf.length := by omega
          by_cases hi : i ≤ len
          · rw [insert_stack_ok hlt hi] at hins
            cases hins
            refine ⟨?_, by omega⟩
            simp
            omega
          · by_cases hcap : i < buf.length
            · rw [insert_stack_gap hlt (by omega) hcap] at hins
              cases hins
              exact ⟨by rw [List.length_set]; exact hbl, by omega⟩
            · rw [insert_stack_oob hlt (by omega)] at hins
              cases hins
    | Heap vec =>
        rw [insert_heap] at hins
        by_cases hi : i ≤ vec.length
        · rw [if_pos hi] at hins
          cases hins
          trivial
        · rw [if_neg hi] at hins
          cases hins
  · intro s i r hWF hrem
    cases s with
    | Stack buf len =>
        obtain ⟨hbl, hle⟩ := hWF
        by_cases hoob : len = 0 ∨ i ≥ len
        · rw [remove_stack_oob hoob] at hrem
          cases hrem
        · have hi : i < len := by omega
          by_cases hlt : len < buf.length
          · rw [remove_stack_ok hi hlt] at hrem
            cases hrem
            refine ⟨?_, by omega⟩
            simp
            omega
          · have heq : len = buf.length := by omega
            subst heq
            rw [remove_stack_full (by omega) hi] at hrem
            cases hrem
    | Heap vec =>
        by_cases hi : i < vec.length
        · rw [remove_heap_ok hi] at hrem
          cases hrem
          trivial
        · rw [remove_heap_oob (by omega)] at hrem
          cases hrem
  · intro s hWF
    cases s with
    | Stack buf len => exact ⟨hWF.1, by omega⟩
    | Heap vec => trivial

/-- Witness for C9: at capacity 1, the fresh container is well-formed
and pushing one element preserves well-formedness. -/
theorem c9_invariant_witness :
    WF 1 (new 1 : LSV Nat) ∧ WF 1 (push (new 1 : LSV Nat) 5) :=
  ⟨(c9_invariant_preserved 1).1,
   (c9_invariant_preserved 1).2.2.1 (new 1) 5 (c9_invariant_preserved 1).1⟩

end LSVModel
